import Mathlib

/-!
# Verification of the kb-agent rule-based reasoning engine

A shallow embedding of `agente_base_de_conhecimento.py`: the value model,
the knowledge store (`KnowledgeBase`), the condition evaluator (`_cmp`,
`conditions_hold`), the forward-chaining loop (`forward_chain`), the
backward-chaining prover (`backward_prove`), and snapshot/undo
(`snapshot_kb` / `restore_kb`), together with theorems settling the
specification claims about them.

Modelling conventions:
* Python numbers (ints and floats) are modelled as rationals `ℚ`;
  floating-point rounding, `inf` and `nan` are outside the model.
* Python `None` is the `Value.null` constructor (it can appear as a fact
  value, a goal value, or the `value=None` default of `has_fact`).
* Python dictionaries (`facts`, `justifications`) are insertion-ordered
  association lists with unique keys; `dictSet` mirrors `d[k] = v`
  (in-place update of an existing key, append of a fresh one) and
  `dictGet` mirrors `d.get(k)`.
* Python sets of attribute names are `Finset String`.
* Mutation is modelled by explicit state passing: each operation returns
  the updated `KB` (and, for the backward prover, the updated shared
  visited set).
-/

set_option autoImplicit false

namespace KBA

/-- A Python runtime value as used by the knowledge base: a number
(int/float, modelled as `ℚ`), a text string, a boolean, a list of values,
or `None`. -/
inductive Value where
  | num : ℚ → Value
  | text : String → Value
  | bool : Bool → Value
  | vlist : List Value → Value
  | null : Value

mutual

/-- Decidable structural equality on `Value` (written by hand: automatic
derivation does not handle the nested `List Value`). -/
def valueDecEq : (a b : Value) → Decidable (a = b)
  | .num a, .num b =>
      if h : a = b then .isTrue (by rw [h]) else .isFalse (by simp [h])
  | .text a, .text b =>
      if h : a = b then .isTrue (by rw [h]) else .isFalse (by simp [h])
  | .bool a, .bool b =>
      if h : a = b then .isTrue (by rw [h]) else .isFalse (by simp [h])
  | .vlist xs, .vlist ys =>
      match valueListDecEq xs ys with
      | .isTrue h => .isTrue (by rw [h])
      | .isFalse h => .isFalse (by simp [h])
  | .null, .null => .isTrue rfl
  | .num _, .text _ => .isFalse (by simp)
  | .num _, .bool _ => .isFalse (by simp)
  | .num _, .vlist _ => .isFalse (by simp)
  | .num _, .null => .isFalse (by simp)
  | .text _, .num _ => .isFalse (by simp)
  | .text _, .bool _ => .isFalse (by simp)
  | .text _, .vlist _ => .isFalse (by simp)
  | .text _, .null => .isFalse (by simp)
  | .bool _, .num _ => .isFalse (by simp)
  | .bool _, .text _ => .isFalse (by simp)
  | .bool _, .vlist _ => .isFalse (by simp)
  | .bool _, .null => .isFalse (by simp)
  | .vlist _, .num _ => .isFalse (by simp)
  | .vlist _, .text _ => .isFalse (by simp)
  | .vlist _, .bool _ => .isFalse (by simp)
  | .vlist _, .null => .isFalse (by simp)
  | .null, .num _ => .isFalse (by simp)
  | .null, .text _ => .isFalse (by simp)
  | .null, .bool _ => .isFalse (by simp)
  | .null, .vlist _ => .isFalse (by simp)

/-- Decidable equality on lists of values. -/
def valueListDecEq : (xs ys : List Value) → Decidable (xs = ys)
  | [], [] => .isTrue rfl
  | [], _ :: _ => .isFalse (by simp)
  | _ :: _, [] => .isFalse (by simp)
  | x :: xs, y :: ys =>
      match valueDecEq x y, valueListDecEq xs ys with
      | .isTrue h1, .isTrue h2 => .isTrue (by rw [h1, h2])
      | .isFalse h1, _ => .isFalse (by simp [h1])
      | _, .isFalse h2 => .isFalse (by simp [h2])

end

instance : DecidableEq Value := valueDecEq

mutual

/-- Normalisation giving Python `==` semantics on `Value`: Python treats
`True`/`False` as the integers `1`/`0` (`True == 1` and `1 == 1.0` hold),
so equality is structural equality after mapping booleans to numbers,
recursively inside lists. -/
def normV : Value → Value
  | .num a => .num a
  | .text s => .text s
  | .bool b => .num (if b then 1 else 0)
  | .vlist xs => .vlist (normVList xs)
  | .null => .null

/-- Elementwise `normV` on a list of values. -/
def normVList : List Value → List Value
  | [] => []
  | v :: vs => normV v :: normVList vs

end

/-- Python `a == b` on runtime values (total, never raises). -/
def pyEq (a b : Value) : Bool := decide (normV a = normV b)

/-! ## Numeric coercion: Python `float(x)`

`_cmp` evaluates ordering operators as `float(a) < float(b)` inside a
`try`/`except` that turns any coercion failure into `False`.  `float`
succeeds on numbers, on booleans (`True ↦ 1.0`, `False ↦ 0.0`) and on
numeric text; it raises on lists and `None` and on non-numeric text.
We model the result as `Option ℚ`.  The text grammar modelled is
`[ws] [+|-] (digits [. digits] | . digits) [(e|E) [+|-] digits] [ws]`;
Python additionally accepts `inf`/`nan` spellings, underscore digit
separators, and non-ASCII digits, which are outside this model. -/

/-- Python whitespace as stripped by `str.strip()` (space, tab, newline,
carriage return, vertical tab, form feed). -/
def isPySpace (c : Char) : Bool :=
  c = ' ' ∨ c = '\t' ∨ c = '\n' ∨ c = '\r' ∨ c.toNat = 11 ∨ c.toNat = 12

/-- `s.strip()` on the character list of a string. -/
def stripChars (cs : List Char) : List Char :=
  ((cs.dropWhile isPySpace).reverse.dropWhile isPySpace).reverse

/-- `s.upper()` restricted to ASCII (`_cmp` only compares the result
against the ASCII literal `"IN"`; Python's full Unicode uppercasing can
differ only on text that never uppercases to `"IN"`, apart from exotica
such as the dotless i, outside this model). -/
def upperAscii (s : String) : String :=
  String.mk (s.data.map (fun c =>
    if 'a' ≤ c ∧ c ≤ 'z' then Char.ofNat (c.toNat - 32) else c))

/-- Split a leading run of decimal digits off a character list. -/
def takeDigits : List Char → List Char × List Char
  | [] => ([], [])
  | c :: cs =>
      if c.isDigit then
        let (ds, rest) := takeDigits cs
        (c :: ds, rest)
      else ([], c :: cs)

/-- Numeric value of a digit string (most significant first). -/
def digitsToNat (ds : List Char) : ℕ :=
  ds.foldl (fun n c => 10 * n + (c.toNat - '0'.toNat)) 0

/-- Parse the exponent suffix (the part after `e`/`E`): an optional sign
and a nonempty digit run, consuming the entire rest of the input. -/
def parseExpSuffix (cs : List Char) : Option ℤ :=
  let (sgn, cs1) : ℤ × List Char :=
    match cs with
    | '+' :: r => (1, r)
    | '-' :: r => (-1, r)
    | r => (1, r)
  let (ds, rest) := takeDigits cs1
  if ds = [] ∨ rest ≠ [] then none else some (sgn * digitsToNat ds)

/-- Scale a rational by an integer power of ten. -/
def scalePow10 (q : ℚ) (e : ℤ) : ℚ :=
  if 0 ≤ e then q * (10 : ℚ) ^ e.toNat else q / (10 : ℚ) ^ (-e).toNat

/-- Python `float(s)` on a string, as an exact rational (see the section
comment for the grammar modelled). -/
def pyFloatOfString (s : String) : Option ℚ :=
  let cs := stripChars s.data
  let (sgn, cs1) : ℚ × List Char :=
    match cs with
    | '+' :: r => (1, r)
    | '-' :: r => (-1, r)
    | r => (1, r)
  let (ip, cs2) := takeDigits cs1
  let (fp, cs3) :=
    match cs2 with
    | '.' :: r => takeDigits r
    | r => ([], r)
  if ip = [] ∧ fp = [] then none
  else
    let mant : ℚ :=
      (digitsToNat ip : ℚ) + (digitsToNat fp : ℚ) / (10 : ℚ) ^ fp.length
    match cs3 with
    | [] => some (sgn * mant)
    | 'e' :: r => (parseExpSuffix r).map (fun e => sgn * scalePow10 mant e)
    | 'E' :: r => (parseExpSuffix r).map (fun e => sgn * scalePow10 mant e)
    | _ => none

/-- `float(v)` on a runtime value: numbers pass through, booleans become
`1`/`0`, numeric text is parsed; lists and `None` raise a `TypeError`
(modelled as `none`, which `_cmp`'s `except` clause turns into `False`). -/
def toNum : Value → Option ℚ
  | .num a => some a
  | .bool b => some (if b then 1 else 0)
  | .text s => pyFloatOfString s
  | .vlist _ => none
  | .null => none

/-! ## `json.loads` on array literals

The `IN` branch of `_cmp` accepts a *textual* operand that starts with
`[` and tries `json.loads` on it, failing closed.  We model a recursive
descent over the characters with a fuel argument (`length + 1` suffices
because every recursive call consumes at least one character).  JSON
strings are modelled without escape decoding and JSON objects are not
modelled (both make the parse fail, hence the comparison `False`; no
claim exercises those corners). -/

/-- Drop leading JSON whitespace. -/
def skipWs : List Char → List Char
  | c :: cs => if c = ' ' ∨ c = '\t' ∨ c = '\n' ∨ c = '\r' then skipWs cs else c :: cs
  | [] => []

/-- Parse a JSON number starting at the given characters:
`[-] digits [. digits] [(e|E) [+|-] digits]`. -/
def jsonNumber (cs : List Char) : Option (ℚ × List Char) :=
  let (sgn, cs1) : ℚ × List Char :=
    match cs with
    | '-' :: r => (-1, r)
    | r => (1, r)
  let (ip, cs2) := takeDigits cs1
  if ip = [] then none
  else
    let (fp, cs3) :=
      match cs2 with
      | '.' :: r => takeDigits r
      | r => ([], r)
    let mant : ℚ :=
      (digitsToNat ip : ℚ) + (digitsToNat fp : ℚ) / (10 : ℚ) ^ fp.length
    match cs3 with
    | 'e' :: r | 'E' :: r =>
        let (esgn, r1) : ℤ × List Char :=
          match r with
          | '+' :: t => (1, t)
          | '-' :: t => (-1, t)
          | t => (1, t)
        let (eds, r2) := takeDigits r1
        if eds = [] then none
        else some (sgn * scalePow10 mant (esgn * digitsToNat eds), r2)
    | _ => some (sgn * mant, cs3)

/-- Parse a JSON string body up to the closing quote (escape sequences
are not decoded: a backslash keeps the following character verbatim). -/
def jsonStringBody : List Char → Option (List Char × List Char)
  | [] => none
  | '"' :: rest => some ([], rest)
  | '\\' :: c :: rest =>
      match jsonStringBody rest with
      | some (body, rest') => some (c :: body, rest')
      | none => none
  | c :: rest =>
      match jsonStringBody rest with
      | some (body, rest') => some (c :: body, rest')
      | none => none

mutual

/-- Parse one JSON value (number, string, `true`/`false`/`null`, or
nested array). -/
def jsonValue : ℕ → List Char → Option (Value × List Char)
  | 0, _ => none
  | fuel + 1, cs =>
      match skipWs cs with
      | '[' :: r => jsonItems fuel r
      | '"' :: r =>
          match jsonStringBody r with
          | some (body, rest) => some (.text (String.mk body), rest)
          | none => none
      | 't' :: 'r' :: 'u' :: 'e' :: r => some (.bool true, r)
      | 'f' :: 'a' :: 'l' :: 's' :: 'e' :: r => some (.bool false, r)
      | 'n' :: 'u' :: 'l' :: 'l' :: r => some (.null, r)
      | other =>
          match jsonNumber other with
          | some (q, rest) => some (.num q, rest)
          | none => none

/-- Parse the items of a JSON array after the opening `[`. -/
def jsonItems : ℕ → List Char → Option (Value × List Char)
  | 0, _ => none
  | fuel + 1, cs =>
      match skipWs cs with
      | ']' :: r => some (.vlist [], r)
      | cs' =>
          match jsonValue fuel cs' with
          | some (v, rest) => jsonItemsTail fuel v rest
          | none => none

/-- Parse `, item`* `]` after one array item, accumulating the head. -/
def jsonItemsTail : ℕ → Value → List Char → Option (Value × List Char)
  | 0, _, _ => none
  | fuel + 1, v, cs =>
      match skipWs cs with
      | ']' :: r => some (.vlist [v], r)
      | ',' :: r =>
          match jsonValue fuel r with
          | some (w, rest) =>
              match jsonItemsTail fuel w rest with
              | some (.vlist ws, rest') => some (.vlist (v :: ws), rest')
              | _ => none
          | none => none
      | _ => none

end

/-- `json.loads(s)` restricted to the success case of a top-level array,
requiring (as Python does) that nothing but whitespace follows. -/
def jsonLoadsArray (s : String) : Option (List Value) :=
  match jsonValue (s.data.length + 1) s.data with
  | some (.vlist xs, rest) => if skipWs rest = [] then some xs else none
  | _ => none

/-! ## The condition predicate `_cmp` -/

/-- The equality operator spellings accepted by `_cmp` (and by
`backward_prove` when deciding whether a premise may be sub-proved). -/
def eqOps : List String := ["=", "==", "é", "eh", "É"]

/-- The inequality operator spellings. -/
def neqOps : List String := ["!=", "≠"]

/-- The less-than family (`<` strict, `≤`/`<=` non-strict). -/
def ltOps : List String := ["<", "≤", "<="]

/-- The greater-than family (`>` strict, `≥`/`>=` non-strict). -/
def gtOps : List String := [">", "≥", ">="]

/-- `_cmp(a, op, b)`: the condition predicate.  The whole Python body is
wrapped in `try/except Exception: return False`, so every failure path
(unknown operator, failed numeric coercion, failed JSON decode) yields
`False` rather than an error. -/
def pyCmp (a : Value) (op : String) (b : Value) : Bool :=
  if op ∈ eqOps then pyEq a b
  else if op ∈ neqOps then !(pyEq a b)
  else if op ∈ ltOps then
    match toNum a, toNum b with
    | some x, some y =>
        if op ∈ (["≤", "<="] : List String) then decide (x ≤ y) else decide (x < y)
    | _, _ => false
  else if op ∈ gtOps then
    match toNum a, toNum b with
    | some x, some y =>
        if op ∈ (["≥", ">="] : List String) then decide (x ≥ y) else decide (x > y)
    | _, _ => false
  else if upperAscii op = "IN" then
    match b with
    | .vlist xs => xs.any (fun w => pyEq a w)
    | .text s =>
        if (stripChars s.data).head? = some '[' then
          match jsonLoadsArray s with
          | some xs => xs.any (fun w => pyEq a w)
          | none => false
        else false
    | _ => false
  else false

/-! ## Data model: facts, rules, justifications, the knowledge base -/

/-- A fact: an attribute together with its current value. -/
structure Fact where
  attr : String
  value : Value
deriving DecidableEq

/-- Provenance of a fact: the rule that derived it (`none` for a fact
asserted directly), the premise facts used, and a note tag
(`"base"`, `"forward (it=k)"` or `"backward"`). -/
structure Justification where
  fact : Fact
  rule_id : Option ℤ
  premises : List Fact
  note : String
deriving DecidableEq

/-- A condition dictionary `{"attr": ..., "op": ..., "value": ...}`. -/
structure Condition where
  attr : String
  op : String
  value : Value
deriving DecidableEq

/-- A conclusion dictionary (its `op` is carried but never consulted by
the engines). -/
structure Conclusion where
  attr : String
  op : String
  value : Value
deriving DecidableEq

/-- A rule: id, ordered conjunction of conditions, one conclusion, and
the original source text. -/
structure Rule where
  id : ℤ
  conditions : List Condition
  conclusion : Conclusion
  text : String
deriving DecidableEq

/-- `d.get(k)` on an insertion-ordered dictionary. -/
def dictGet {α : Type} : List (String × α) → String → Option α
  | [], _ => none
  | (k', v) :: rest, k => if k' = k then some v else dictGet rest k

/-- `d[k] = v` on an insertion-ordered dictionary: update in place if the
key exists, append otherwise. -/
def dictSet {α : Type} : List (String × α) → String → α → List (String × α)
  | [], k, v => [(k, v)]
  | (k', v') :: rest, k, v =>
      if k' = k then (k', v) :: rest else (k', v') :: dictSet rest k v

/-- The knowledge store (`class KnowledgeBase`): facts and justifications
as attribute-keyed dictionaries, the ordered rule list, the rule-id
counter (`_next_rule_id` in the source), and the three derived attribute
catalogs (`attributes`, `_cond_attrs`, `_concl_attrs`). -/
structure KB where
  facts : List (String × Value)
  rules : List Rule
  justifications : List (String × Justification)
  next_rule_id : ℤ
  attributes : Finset String
  cond_attrs : Finset String
  concl_attrs : Finset String
deriving DecidableEq

/-- `KnowledgeBase.__init__`. -/
def KB.init : KB := ⟨[], [], [], 1, ∅, ∅, ∅⟩

/-- `_touch_attribute(attr, where)`: record a (stripped, nonempty)
attribute name in the catalogs. -/
def KB.touch_attribute (kb : KB) (attr : String) (wh : String) : KB :=
  if String.mk (stripChars attr.data) ≠ "" then
    let a := String.mk (stripChars attr.data)
    { kb with
      attributes := insert a kb.attributes,
      cond_attrs := if wh = "cond" then insert a kb.cond_attrs else kb.cond_attrs,
      concl_attrs := if wh = "concl" then insert a kb.concl_attrs else kb.concl_attrs }
  else kb

/-- `_extract_attributes_from_rule`. -/
def KB.extract_attributes_from_rule (kb : KB) (r : Rule) : KB :=
  (r.conditions.foldl (fun k c => k.touch_attribute c.attr "cond") kb).touch_attribute
    r.conclusion.attr "concl"

/-- `_rebuild_attributes`: reset the catalogs and re-derive them from the
current rule list. -/
def KB.rebuild_attributes (kb : KB) : KB :=
  kb.rules.foldl (fun k r => k.extract_attributes_from_rule r)
    { kb with attributes := ∅, cond_attrs := ∅, concl_attrs := ∅ }

/-- `add_fact`: store the value and replace the attribute's
justification with a direct-assertion record. -/
def KB.add_fact (kb : KB) (attr : String) (value : Value) (note : String) : KB :=
  { kb with
    facts := dictSet kb.facts attr value,
    justifications := dictSet kb.justifications attr ⟨⟨attr, value⟩, none, [], note⟩ }

/-- `has_fact(attr, value)`: `value = None` (modelled as `Value.null`)
tests bare presence of the attribute; otherwise the stored value must
compare `==` to the requested one. -/
def KB.has_fact (kb : KB) (attr : String) (value : Value) : Bool :=
  match dictGet kb.facts attr with
  | none => false
  | some w =>
      match value with
      | .null => true
      | v => pyEq w v

/-- `add_rule`: assign the next id, advance the counter, append the rule
and update the catalogs; returns the assigned id with the new store. -/
def KB.add_rule (kb : KB) (conditions : List Condition) (conclusion : Conclusion)
    (text : String) : ℤ × KB :=
  let rid := kb.next_rule_id
  let r : Rule := ⟨rid, conditions, conclusion, text⟩
  let kb1 := { kb with next_rule_id := rid + 1, rules := kb.rules ++ [r] }
  (rid, kb1.extract_attributes_from_rule r)

/-- One rule entry of the persisted JSON structure. -/
structure RuleJson where
  id : ℤ
  conditions : List Condition
  conclusion : Conclusion
  text : String
deriving DecidableEq

/-- The persisted structure `{facts: [...], rules: [...]}` (an absent
key is modelled by the empty list, matching `obj.get(..., [])`). -/
structure KBJson where
  facts : List (String × Value)
  rules : List RuleJson
deriving DecidableEq

/-- The body of `load_json`'s facts loop: `self.add_fact(f["attr"],
f["value"])` (default note `"base"`). -/
def loadFactsStep (k : KB) (p : String × Value) : KB :=
  k.add_fact p.1 p.2 "base"

/-- The body of `load_json`'s rules loop: bump the id counter past the
loaded id, then append the reconstructed rule. -/
def loadRuleStep (k : KB) (r : RuleJson) : KB :=
  { k with
    next_rule_id := max k.next_rule_id (r.id + 1),
    rules := k.rules ++ [⟨r.id, r.conditions, r.conclusion, r.text⟩] }

/-- `load_json`: reset the store (`self.__init__()`), re-assert the
persisted facts, append the persisted rules while bumping the id counter
past each loaded id, then rebuild the catalogs. -/
def KB.load_json (_kb : KB) (obj : KBJson) : KB :=
  (obj.rules.foldl loadRuleStep (obj.facts.foldl loadFactsStep KB.init)).rebuild_attributes

/-! ## Condition conjunction -/

/-- `conditions_hold(kb, conds)`: ordered conjunction, short-circuiting
with `(False, [])` on the first condition whose attribute is absent or
whose predicate fails; on full success, `(True, used)` with the facts
consulted in condition order. -/
def conditions_hold (kb : KB) : List Condition → Bool × List Fact
  | [] => (true, [])
  | c :: rest =>
      match dictGet kb.facts c.attr with
      | none => (false, [])
      | some w =>
          if pyCmp w c.op c.value then
            match conditions_hold kb rest with
            | (true, fs) => (true, ⟨c.attr, w⟩ :: fs)
            | (false, _) => (false, [])
          else (false, [])

/-! ## Forward chaining -/

/-- The store update performed when a rule fires in forward pass `it`:
write the conclusion value and a `forward (it=k)` justification. -/
def assertForward (kb : KB) (r : Rule) (it : ℕ) (used : List Fact) : KB :=
  { kb with
    facts := dictSet kb.facts r.conclusion.attr r.conclusion.value,
    justifications := dictSet kb.justifications r.conclusion.attr
      ⟨⟨r.conclusion.attr, r.conclusion.value⟩, some r.id, used, s!"forward (it={it})"⟩ }

/-- One pass of the inner `for r in kb.rules` loop: scan the given rules
in order against the *live* store, firing each rule whose conditions hold
and whose conclusion is not already an identical known fact.  Returns the
updated store and the facts asserted during the pass, in firing order. -/
def forwardPass (it : ℕ) : KB → List Rule → KB × List Fact
  | kb, [] => (kb, [])
  | kb, r :: rs =>
      let (ok, used) := conditions_hold kb r.conditions
      if ok then
        if kb.has_fact r.conclusion.attr r.conclusion.value then forwardPass it kb rs
        else
          let kb' := assertForward kb r it used
          let (kb'', fs) := forwardPass it kb' rs
          (kb'', ⟨r.conclusion.attr, r.conclusion.value⟩ :: fs)
      else forwardPass it kb rs

/-- The `while new_any and it < max_iterations` loop: `n` iterations
remain, `it` is the 1-based number of the next pass.  A pass that asserts
nothing (`new_any = False`) ends the loop. -/
def forwardLoop : ℕ → ℕ → KB → List Fact × KB
  | 0, _, kb => ([], kb)
  | n + 1, it, kb =>
      let (kb', fs) := forwardPass it kb kb.rules
      if fs.isEmpty then ([], kb')
      else
        let (rest, kb'') := forwardLoop n (it + 1) kb'
        (fs ++ rest, kb'')

/-- `forward_chain(kb, max_iterations)` (the source defaults the cap to
50): returns the list of newly inferred facts in derivation order,
together with the mutated store. -/
def forward_chain (kb : KB) (max_iterations : ℕ) : List Fact × KB :=
  forwardLoop max_iterations 1 kb

/-! ## Backward chaining

The Python prover threads one shared mutable `visited` set of
`(attribute, value)` pairs through the entire proof attempt; membership
uses Python tuple equality, i.e. `pyEq` on the value component.  We model
the set as a list (only membership is ever observed) and thread it, with
the mutated store, through every call.  The recursion is expressed with a
`fuel` argument; `bprove_total` below shows a fuel of
`2 + (number of condition pairs in the rule set)` always suffices, which
is the termination argument of the source (each recursive call inserts a
previously unseen pair into `visited`). -/

/-- The visited set (Python `Set[Tuple[str, Any]]`). -/
abbrev Vis := List (String × Value)

/-- `(g, v) in visited`, with Python tuple equality. -/
def visMem (g : String) (v : Value) (vis : Vis) : Bool :=
  vis.any (fun p => p.1 == g && pyEq p.2 v)

/-- Shape of the recursive prover passed to the loop helpers: it maps a
store, goal pair and visited set to `(result, store, visited)`, or `none`
when the fuel is exhausted. -/
abbrev BProveFn := KB → String → Value → Vis → Option (Bool × KB × Vis)

/-- The `for c in r.conditions` loop of `backward_prove`: a known
attribute must satisfy its operator outright; an unknown attribute is
recursively sub-proved only for an equality operator, any other operator
failing the candidate.  Returns `premises_ok` with the `used_facts`
collected so far (consulted only on success, as in the source), threading
the store and visited set. -/
def conds_step (recur : BProveFn) : KB → Vis → List Condition →
    Option (Bool × List Fact × KB × Vis)
  | kb, vis, [] => some (true, [], kb, vis)
  | kb, vis, c :: rest =>
      match dictGet kb.facts c.attr with
      | some w =>
          if pyCmp w c.op c.value then
            match conds_step recur kb vis rest with
            | some (ok, fs, kb', vis') => some (ok, ⟨c.attr, w⟩ :: fs, kb', vis')
            | none => none
          else some (false, [], kb, vis)
      | none =>
          if c.op ∈ eqOps then
            match recur kb c.attr c.value vis with
            | some (true, kb', vis') =>
                let f : Fact := ⟨c.attr, (dictGet kb'.facts c.attr).getD c.value⟩
                match conds_step recur kb' vis' rest with
                | some (ok, fs, kb'', vis'') => some (ok, f :: fs, kb'', vis'')
                | none => none
            | some (false, kb', vis') => some (false, [], kb', vis')
            | none => none
          else some (false, [], kb, vis)

/-- The store update performed when a candidate rule proves the goal:
write the goal fact and a `"backward"` justification. -/
def assertBackward (kb : KB) (g : String) (v : Value) (rid : ℤ) (used : List Fact) : KB :=
  { kb with
    facts := dictSet kb.facts g v,
    justifications := dictSet kb.justifications g ⟨⟨g, v⟩, some rid, used, "backward"⟩ }

/-- The `for r in candidates` loop of `backward_prove`: try each
candidate in rule order; the first whose premises all resolve asserts the
goal and wins; when none succeeds the result is `False`. -/
def cands_step (recur : BProveFn) (g : String) (v : Value) : KB → Vis → List Rule →
    Option (Bool × KB × Vis)
  | kb, vis, [] => some (false, kb, vis)
  | kb, vis, r :: rest =>
      match conds_step recur kb vis r.conditions with
      | some (true, used, kb', vis') => some (true, assertBackward kb' g v r.id used, vis')
      | some (false, _, kb', vis') => cands_step recur g v kb' vis' rest
      | none => none

/-- `backward_prove(kb, goal_attr, goal_val, visited)` with fuel: fail a
branch whose goal pair is already visited, record the pair, succeed on an
already-known fact, otherwise try the candidate rules in order. -/
def bproveF : ℕ → KB → String → Value → Vis → Option (Bool × KB × Vis)
  | 0, _, _, _, _ => none
  | fuel + 1, kb, g, v, vis =>
      if visMem g v vis then some (false, kb, vis)
      else
        let vis1 := (g, v) :: vis
        if kb.has_fact g v then some (true, kb, vis1)
        else
          let cands := kb.rules.filter
            (fun r => r.conclusion.attr == g && pyEq r.conclusion.value v)
          cands_step (bproveF fuel) g v kb vis1 cands

/-- The top-level entry point (`visited = None` defaults to a fresh empty
set). -/
def backward_prove (fuel : ℕ) (kb : KB) (goal_attr : String) (goal_val : Value) :
    Option (Bool × KB × Vis) :=
  bproveF fuel kb goal_attr goal_val []

/-! ## Snapshot / undo -/

/-- The `Snapshot` dataclass. -/
structure Snapshot where
  facts : List (String × Value)
  justifications : List (String × Justification)
  rules : List Rule
  next_rule_id : ℤ
  attributes : Finset String
  cond_attrs : Finset String
  concl_attrs : Finset String
deriving DecidableEq

/-- `snapshot_kb`: a full deep copy of the store's mutable state.  The
source rebuilds each justification and rule record field by field; on
immutable values that rebuild is the identity, mirrored literally here. -/
def snapshot_kb (kb : KB) : Snapshot :=
  { facts := kb.facts,
    justifications := kb.justifications.map
      (fun p => (p.1, ⟨⟨p.2.fact.attr, p.2.fact.value⟩, p.2.rule_id,
        p.2.premises.map (fun q => ⟨q.attr, q.value⟩), p.2.note⟩)),
    rules := kb.rules.map (fun r => ⟨r.id, r.conditions, r.conclusion, r.text⟩),
    next_rule_id := kb.next_rule_id,
    attributes := kb.attributes,
    cond_attrs := kb.cond_attrs,
    concl_attrs := kb.concl_attrs }

/-- `restore_kb`: replace every piece of the store's mutable state with
the snapshot's copy (the previous store contents are discarded). -/
def restore_kb (_kb : KB) (snap : Snapshot) : KB :=
  { facts := snap.facts,
    justifications := snap.justifications,
    rules := snap.rules.map (fun r => ⟨r.id, r.conditions, r.conclusion, r.text⟩),
    next_rule_id := snap.next_rule_id,
    attributes := snap.attributes,
    cond_attrs := snap.cond_attrs,
    concl_attrs := snap.concl_attrs }

/-! ## Specification-side definitions

Characterisations used to *state* the claims; each is compared against
the engine functions above by theorem, never used inside them. -/

/-- One condition holds against the current store: its attribute is
present and the predicate succeeds on the stored value. -/
def condOK (kb : KB) (c : Condition) : Bool :=
  match dictGet kb.facts c.attr with
  | none => false
  | some w => pyCmp w c.op c.value

/-- The fact `conditions_hold` consults for a condition (the default is
never reached when the condition holds). -/
def consultedFact (kb : KB) (c : Condition) : Fact :=
  ⟨c.attr, (dictGet kb.facts c.attr).getD Value.null⟩

/-- The key set of an attribute-keyed dictionary. -/
def keyFinset {α : Type} (d : List (String × α)) : Finset String :=
  (d.map Prod.fst).toFinset

/-- The invariant of claim C8: facts and justifications are keyed
identically. -/
def factsJustsAligned (kb : KB) : Prop :=
  keyFinset kb.facts = keyFinset kb.justifications

/-- All `(attribute, value)` pairs appearing in rule conditions — the
universe from which `backward_prove` draws every recursive sub-goal. -/
def condPairs (rs : List Rule) : List (String × Value) :=
  rs.flatMap (fun r => r.conditions.map (fun c => (c.attr, c.value)))

/-- How many pairs of the universe `U` are not yet covered (up to Python
tuple equality) by the visited set — the decreasing measure of the
backward prover. -/
def unvisitedCount (U : List (String × Value)) (vis : Vis) : ℕ :=
  (U.filter (fun p => !visMem p.1 p.2 vis)).length

/-! ## Concrete stores used as counterexamples and witnesses -/

/-- A store where a rule's conclusion attribute (`B`) already has a
*different* value: the firing rule overwrites `B = 3` with `B = 2`. -/
def kbOver : KB := ⟨[("A", .num 1), ("B", .num 3)],
  [⟨1, [⟨"A", "=", .num 1⟩], ⟨"B", "=", .num 2⟩, ""⟩], [], 2, ∅, ∅, ∅⟩

/-- Two rules concluding different values for the same attribute from
the same premise: forward chaining re-fires both every round and the
iteration cap (not a fixpoint) stops it. -/
def kbOsc : KB := ⟨[("A", .num 1)],
  [⟨1, [⟨"A", "=", .num 1⟩], ⟨"B", "=", .num 1⟩, ""⟩,
   ⟨2, [⟨"A", "=", .num 1⟩], ⟨"B", "=", .num 2⟩, ""⟩], [], 3, ∅, ∅, ∅⟩

/-- The spec's cyclic pair of rules: `X=1` needs `Y=1` and vice versa,
with neither known. -/
def kbCyc : KB := ⟨[],
  [⟨1, [⟨"Y", "=", .num 1⟩], ⟨"X", "=", .num 1⟩, ""⟩,
   ⟨2, [⟨"X", "=", .num 1⟩], ⟨"Y", "=", .num 1⟩, ""⟩], [], 3, ∅, ∅, ∅⟩

/-- A store where proving `G = 1` fails (no fact `B = 2` and no rule for
it) but the successful sub-proof of `A = 1` mutates the store first. -/
def kbC2 : KB := ⟨[("C", .num 1)],
  [⟨1, [⟨"C", "=", .num 1⟩], ⟨"A", "=", .num 1⟩, ""⟩,
   ⟨2, [⟨"A", "=", .num 1⟩, ⟨"B", "=", .num 2⟩], ⟨"G", "=", .num 1⟩, ""⟩],
  [], 3, ∅, ∅, ∅⟩

/-- The store left behind by the failed proof attempt on `kbC2`: the
sub-goal fact `A = 1` (with its backward justification) persists. -/
def kbC2after : KB := ⟨[("C", .num 1), ("A", .num 1)],
  kbC2.rules,
  [("A", ⟨⟨"A", .num 1⟩, some 1, [⟨"C", .num 1⟩], "backward"⟩)],
  3, ∅, ∅, ∅⟩

/-- The visited set left behind by that failed proof attempt. -/
def visC2after : Vis := [("B", .num 2), ("A", .num 1), ("G", .num 1)]

/-- A store already at fixpoint: its only rule's conclusion is already a
known identical fact, so a forward pass asserts nothing. -/
def kbFix : KB := ⟨[("A", .num 1), ("B", .num 1)],
  [⟨1, [⟨"A", "=", .num 1⟩], ⟨"B", "=", .num 1⟩, ""⟩], [], 2, ∅, ∅, ∅⟩

/-- A persisted structure whose rules carry ids 7 and 3. -/
def objC10 : KBJson := ⟨[("A", .num 1)],
  [⟨7, [⟨"A", "=", .num 1⟩], ⟨"B", "=", .num 2⟩, ""⟩,
   ⟨3, [⟨"B", "=", .num 2⟩], ⟨"C", "=", .num 3⟩, ""⟩]⟩


/-! ## Helper lemmas -/

/-- `pyEq` is reflexive. -/
theorem pyEq_refl (a : Value) : pyEq a a = true := by simp [pyEq]

/-- `pyEq` is symmetric. -/
theorem pyEq_symm (a b : Value) : pyEq a b = pyEq b a := by
  simp only [pyEq, decide_eq_decide]
  constructor <;> intro h <;> exact h.symm

/-- `pyEq` is transitive. -/
theorem pyEq_trans {a b c : Value} (h1 : pyEq a b = true) (h2 : pyEq b c = true) :
    pyEq a c = true := by
  simp only [pyEq, decide_eq_true_eq] at h1 h2 ⊢
  exact h1.trans h2

/-- Reading back the key just written. -/
theorem dictGet_dictSet_self {α : Type} (d : List (String × α)) (k : String) (v : α) :
    dictGet (dictSet d k v) k = some v := by
  induction d with
  | nil => simp [dictSet, dictGet]
  | cons p rest ih =>
      by_cases h : p.1 = k
      · simp [dictSet, dictGet, h]
      · simp [dictSet, dictGet, h, ih]

/-- Writing one key leaves every other key's entry unchanged. -/
theorem dictGet_dictSet_other {α : Type} (d : List (String × α)) (k k' : String) (v : α)
    (h : k ≠ k') : dictGet (dictSet d k v) k' = dictGet d k' := by
  induction d with
  | nil => simp [dictSet, dictGet, h]
  | cons p rest ih =>
      by_cases hp : p.1 = k
      · simp [dictSet, dictGet, hp, h]
      · simp only [dictSet, if_neg hp]
        by_cases hp' : p.1 = k'
        · simp [dictGet, hp']
        · simp [dictGet, hp', ih]

/-- A write never removes a key from the dictionary's domain. -/
theorem dictGet_dictSet_isSome {α : Type} (d : List (String × α)) (k a : String) (v : α)
    (h : (dictGet d a).isSome) : (dictGet (dictSet d k v) a).isSome := by
  by_cases hk : k = a
  · subst hk; simp [dictGet_dictSet_self]
  · rwa [dictGet_dictSet_other d k a v hk]

/-- A write inserts exactly its own key into the key set. -/
theorem keyFinset_dictSet {α : Type} (d : List (String × α)) (k : String) (v : α) :
    keyFinset (dictSet d k v) = insert k (keyFinset d) := by
  induction d with
  | nil => simp [dictSet, keyFinset]
  | cons p rest ih =>
      by_cases h : p.1 = k
      · simp [dictSet, keyFinset, h]
      · simp only [dictSet, if_neg h, keyFinset, List.map_cons, List.toFinset_cons] at ih ⊢
        rw [ih, Finset.Insert.comm]

/-! ## Claim C5: `conditions_hold` -/

/-- C5: `conditions_hold` returns `(false, [])` as soon as some condition
has an absent attribute or a failing predicate (short-circuit), and
returns `(true, premises)` — the facts consulted, one per condition, in
condition order — exactly when every condition holds. -/
theorem c5_conditions_hold_spec (kb : KB) (conds : List Condition) :
    conditions_hold kb conds =
      if conds.all (condOK kb) then (true, conds.map (consultedFact kb))
      else (false, []) := by
  induction conds with
  | nil => simp [conditions_hold]
  | cons c rest ih =>
      simp only [conditions_hold, List.all_cons]
      cases h : dictGet kb.facts c.attr with
      | none => simp [condOK, h]
      | some w =>
          by_cases hc : pyCmp w c.op c.value = true
          · rw [ih]
            by_cases hr : rest.all (condOK kb) = true
            · simp [condOK, h, hc, hr, consultedFact]
            · simp [condOK, h, hc, hr]
          · simp [condOK, h, hc]

/-- The field-by-field rule rebuild of `snapshot_kb`/`restore_kb` is the
identity. -/
theorem ruleCopy_id (rs : List Rule) :
    rs.map (fun r => (⟨r.id, r.conditions, r.conclusion, r.text⟩ : Rule)) = rs :=
  List.map_id' rs

/-- The field-by-field justification rebuild of `snapshot_kb` is the
identity. -/
theorem justCopy_id (j : List (String × Justification)) :
    j.map (fun p => (p.1, (⟨⟨p.2.fact.attr, p.2.fact.value⟩, p.2.rule_id,
      p.2.premises.map (fun q => (⟨q.attr, q.value⟩ : Fact)), p.2.note⟩ : Justification)))
      = j := by
  induction j with
  | nil => rfl
  | cons p rest ih =>
      obtain ⟨k, ⟨⟨fa, fv⟩, rid, prem, nt⟩⟩ := p
      simp [ih, List.map_id']

/-- Restoring a snapshot of `kb` reproduces `kb`, whatever the store
looked like at restore time. -/
theorem restore_snapshot_eq (kb kb2 : KB) : restore_kb kb2 (snapshot_kb kb) = kb := by
  unfold restore_kb snapshot_kb
  simp only [ruleCopy_id, justCopy_id]

/-! ## Claim C7: snapshot/restore round-trip -/

/-- C7: restoring a snapshot of `kb` on top of any intermediate store
state reproduces `kb` exactly — facts, rules, justifications, the
rule-id counter and all three attribute catalogs. -/
theorem c7_restore_snapshot (kb kb2 : KB) : restore_kb kb2 (snapshot_kb kb) = kb :=
  restore_snapshot_eq kb kb2

/-! ## Claim C9: `has_fact` with the `None` default -/

/-- C9: `has_fact(attr, None)` is a bare presence test, and consequently
`backward_prove(kb, attr, None)` succeeds immediately (mutating nothing
but the visited set) whenever the attribute has any fact at all. -/
theorem c9_has_fact_null (kb : KB) (a : String) :
    (kb.has_fact a .null = (dictGet kb.facts a).isSome) ∧
    ((dictGet kb.facts a).isSome = true →
      ∀ fuel, bproveF (fuel + 1) kb a .null [] = some (true, kb, [(a, .null)])) := by
  constructor
  · unfold KB.has_fact
    cases h : dictGet kb.facts a <;> simp
  · intro h fuel
    obtain ⟨w, hw⟩ := Option.isSome_iff_exists.mp h
    simp [bproveF, visMem, KB.has_fact, hw]

/-! ## Claim C10: rule-id uniqueness across `load_json` -/

/-- `_touch_attribute` only changes the attribute catalogs. -/
theorem touch_attribute_state (kb : KB) (a w : String) :
    (kb.touch_attribute a w).facts = kb.facts ∧
    (kb.touch_attribute a w).rules = kb.rules ∧
    (kb.touch_attribute a w).justifications = kb.justifications ∧
    (kb.touch_attribute a w).next_rule_id = kb.next_rule_id := by
  unfold KB.touch_attribute
  split <;> simp

/-- `_extract_attributes_from_rule` only changes the attribute catalogs. -/
theorem extract_state (kb : KB) (r : Rule) :
    (kb.extract_attributes_from_rule r).facts = kb.facts ∧
    (kb.extract_attributes_from_rule r).rules = kb.rules ∧
    (kb.extract_attributes_from_rule r).justifications = kb.justifications ∧
    (kb.extract_attributes_from_rule r).next_rule_id = kb.next_rule_id := by
  unfold KB.extract_attributes_from_rule
  have main : ∀ (cs : List Condition) (k : KB),
      ((cs.foldl (fun k c => k.touch_attribute c.attr "cond") k)).facts = k.facts ∧
      ((cs.foldl (fun k c => k.touch_attribute c.attr "cond") k)).rules = k.rules ∧
      ((cs.foldl (fun k c => k.touch_attribute c.attr "cond") k)).justifications =
        k.justifications ∧
      ((cs.foldl (fun k c => k.touch_attribute c.attr "cond") k)).next_rule_id =
        k.next_rule_id := by
    intro cs
    induction cs with
    | nil => intro k; simp
    | cons c rest ih =>
        intro k
        simp only [List.foldl_cons]
        obtain ⟨h1, h2, h3, h4⟩ := ih (k.touch_attribute c.attr "cond")
        obtain ⟨g1, g2, g3, g4⟩ := touch_attribute_state k c.attr "cond"
        exact ⟨h1.trans g1, h2.trans g2, h3.trans g3, h4.trans g4⟩
  obtain ⟨h1, h2, h3, h4⟩ := main r.conditions kb
  obtain ⟨g1, g2, g3, g4⟩ := touch_attribute_state
    (r.conditions.foldl (fun k c => k.touch_attribute c.attr "cond") kb) r.conclusion.attr "concl"
  exact ⟨g1.trans h1, g2.trans h2, g3.trans h3, g4.trans h4⟩

/-- `_rebuild_attributes` only changes the attribute catalogs. -/
theorem rebuild_state (kb : KB) :
    (kb.rebuild_attributes).facts = kb.facts ∧
    (kb.rebuild_attributes).rules = kb.rules ∧
    (kb.rebuild_attributes).justifications = kb.justifications ∧
    (kb.rebuild_attributes).next_rule_id = kb.next_rule_id := by
  unfold KB.rebuild_attributes
  have main : ∀ (rs : List Rule) (k : KB),
      ((rs.foldl (fun k r => k.extract_attributes_from_rule r) k)).facts = k.facts ∧
      ((rs.foldl (fun k r => k.extract_attributes_from_rule r) k)).rules = k.rules ∧
      ((rs.foldl (fun k r => k.extract_attributes_from_rule r) k)).justifications =
        k.justifications ∧
      ((rs.foldl (fun k r => k.extract_attributes_from_rule r) k)).next_rule_id =
        k.next_rule_id := by
    intro rs
    induction rs with
    | nil => intro k; simp
    | cons r rest ih =>
        intro k
        simp only [List.foldl_cons]
        obtain ⟨h1, h2, h3, h4⟩ := ih (k.extract_attributes_from_rule r)
        obtain ⟨g1, g2, g3, g4⟩ := extract_state k r
        exact ⟨h1.trans g1, h2.trans g2, h3.trans g3, h4.trans g4⟩
  exact main kb.rules _

/-- The facts loop of `load_json` does not touch the rule list or the id
counter. -/
theorem loadFacts_rules_next (l : List (String × Value)) (k : KB) :
    (l.foldl loadFactsStep k).rules = k.rules ∧
    (l.foldl loadFactsStep k).next_rule_id = k.next_rule_id := by
  induction l generalizing k with
  | nil => simp
  | cons p rest ih =>
      simp only [List.foldl_cons]
      exact ih (loadFactsStep k p)

/-- Through the rules loop of `load_json`, every rule in the store keeps
an id strictly below the id counter. -/
theorem loadRules_id_bound (rs : List RuleJson) (k : KB)
    (h : ∀ r ∈ k.rules, r.id < k.next_rule_id) :
    ∀ r ∈ (rs.foldl loadRuleStep k).rules, r.id < (rs.foldl loadRuleStep k).next_rule_id := by
  induction rs generalizing k with
  | nil => simpa using h
  | cons rj rest ih =>
      simp only [List.foldl_cons]
      apply ih
      intro r hr
      simp only [loadRuleStep, List.mem_append, List.mem_singleton] at hr
      rcases hr with hr | hr
      · exact lt_of_lt_of_le (h r hr) (le_max_left _ _)
      · subst hr
        exact lt_of_lt_of_le (lt_add_one _) (le_max_right _ _)

/-- C10: after `load_json` the id counter strictly exceeds every loaded
rule's id, so a rule added afterwards by `add_rule` receives an id
strictly greater than (hence distinct from) every loaded rule's id. -/
theorem c10_load_rule_id_counter (kb : KB) (obj : KBJson) :
    (∀ r ∈ (kb.load_json obj).rules, r.id < (kb.load_json obj).next_rule_id) ∧
    (∀ (conds : List Condition) (concl : Conclusion) (txt : String),
      ∀ r ∈ (kb.load_json obj).rules,
        r.id < ((kb.load_json obj).add_rule conds concl txt).1) := by
  have hmain : ∀ r ∈ (kb.load_json obj).rules, r.id < (kb.load_json obj).next_rule_id := by
    intro r hr
    unfold KB.load_json at hr ⊢
    rw [(rebuild_state _).2.2.2]
    rw [(rebuild_state _).2.1] at hr
    have h0 : ∀ r ∈ (obj.facts.foldl loadFactsStep KB.init).rules,
        r.id < (obj.facts.foldl loadFactsStep KB.init).next_rule_id := by
      rw [(loadFacts_rules_next obj.facts KB.init).1]
      intro r hr
      simp [KB.init] at hr
    exact loadRules_id_bound obj.rules _ h0 r hr
  exact ⟨hmain, fun conds concl txt r hr => hmain r hr⟩

/-- Witness for C10 at a concrete load: the persisted rules carry ids 7
and 3, and a rule added after the load gets a strictly larger id. -/
theorem c10_witness :
    ((⟨7, [⟨"A", "=", .num 1⟩], ⟨"B", "=", .num 2⟩, ""⟩ : Rule) ∈
      (KB.init.load_json objC10).rules) ∧
    (7 : ℤ) < ((KB.init.load_json objC10).add_rule [] ⟨"B", "=", .num 2⟩ "").1 :=
  ⟨by decide, (c10_load_rule_id_counter KB.init objC10).2 [] ⟨"B", "=", .num 2⟩ ""
    ⟨7, [⟨"A", "=", .num 1⟩], ⟨"B", "=", .num 2⟩, ""⟩ (by decide)⟩

/-- Witness for C9: in `kbC2` the attribute `C` holds the fact `1`, so a
`None`-valued presence query and an immediate backward proof both
succeed. -/
theorem c9_witness :
    (kbC2.has_fact "C" .null = (dictGet kbC2.facts "C").isSome) ∧
    ((dictGet kbC2.facts "C").isSome = true) ∧
    bproveF 5 kbC2 "C" .null [] = some (true, kbC2, [("C", .null)]) :=
  ⟨(c9_has_fact_null kbC2 "C").1, by decide, (c9_has_fact_null kbC2 "C").2 (by decide) 4⟩

/-! ## Claim C6: totality of `_cmp` -/

/-- C6: the condition predicate is total by construction (the `except`
clause of the source maps every failure to `False`); an operator outside
every recognised family yields `false`, and an ordering operator whose
operands do not both coerce to numbers yields `false` (fail closed). -/
theorem c6_cmp_fail_closed (a b : Value) (op : String) :
    (op ∉ eqOps → op ∉ neqOps → op ∉ ltOps → op ∉ gtOps → upperAscii op ≠ "IN" →
      pyCmp a op b = false) ∧
    ((op ∈ ltOps ∨ op ∈ gtOps) → (toNum a = none ∨ toNum b = none) →
      pyCmp a op b = false) := by
  constructor
  · intro h1 h2 h3 h4 h5
    simp [pyCmp, h1, h2, h3, h4, h5]
  · intro hop hnum
    have hne : op ∉ eqOps ∧ op ∉ neqOps := by
      rcases hop with hop | hop <;>
        · simp only [ltOps, gtOps, List.mem_cons, List.not_mem_nil, or_false] at hop
          rcases hop with rfl | rfl | rfl <;> exact ⟨by decide, by decide⟩
    rcases hop with hop | hop
    · simp only [pyCmp, if_neg hne.1, if_neg hne.2, if_pos hop]
      rcases hnum with h | h
      · rw [h]
      · rw [h]
        cases toNum a <;> rfl
    · have hlt : op ∉ ltOps := by
        simp only [gtOps, List.mem_cons, List.not_mem_nil, or_false] at hop
        rcases hop with rfl | rfl | rfl <;> decide
      simp only [pyCmp, if_neg hne.1, if_neg hne.2, if_neg hlt, if_pos hop]
      rcases hnum with h | h
      · rw [h]
      · rw [h]
        cases toNum a <;> rfl

/-- Witness for C6: the unknown operator `"FOO"` and an ordering
comparison against non-numeric text both fail closed. -/
theorem c6_witness :
    (pyCmp (.num 1) "FOO" (.num 2) = false) ∧
    (pyCmp (.text "abc") "<" (.num 3) = false) :=
  ⟨(c6_cmp_fail_closed (.num 1) (.num 2) "FOO").1 (by decide) (by decide) (by decide)
      (by decide) (by decide),
    (c6_cmp_fail_closed (.text "abc") (.num 3) "<").2 (Or.inl (by decide))
      (Or.inl (by decide))⟩

/-! ## Claim C1: forward monotonicity -/

/-- Counterexample to C1 as stated: in `kbOver` the pair `(B, 3)` is a
fact before forward chaining and is gone afterwards — the firing rule
overwrote the known attribute `B` with the different value `2`, so the
fact-pair set after the run is not a superset of the one before. -/
theorem c1_counterexample :
    (("B", Value.num 3) ∈ kbOver.facts) ∧
    (("B", Value.num 3) ∉ (forward_chain kbOver 50).2.facts) ∧
    dictGet (forward_chain kbOver 50).2.facts "B" = some (Value.num 2) :=
  ⟨by decide, by decide, by decide⟩

/-- A forward pass never removes an attribute from the facts domain. -/
theorem forwardPass_facts_isSome (it : ℕ) (rs : List Rule) (kb : KB) (a : String)
    (h : (dictGet kb.facts a).isSome) :
    (dictGet (forwardPass it kb rs).1.facts a).isSome := by
  induction rs generalizing kb with
  | nil => simpa [forwardPass] using h
  | cons r rest ih =>
      simp only [forwardPass]
      cases hch : conditions_hold kb r.conditions with
      | mk ok used =>
          cases ok with
          | false => exact ih kb h
          | true =>
              simp only
              cases hf : kb.has_fact r.conclusion.attr r.conclusion.value with
              | true => simpa using ih kb h
              | false =>
                  simp only [Bool.false_eq_true, if_false]
                  cases hfp : forwardPass it (assertForward kb r it used) rest with
                  | mk kb2 fs =>
                      have h' : (dictGet (assertForward kb r it used).facts a).isSome := by
                        simpa [assertForward] using
                          dictGet_dictSet_isSome kb.facts r.conclusion.attr a
                            r.conclusion.value h
                      have := ih (assertForward kb r it used) h'
                      rw [hfp] at this
                      simpa using this

/-- The forward loop never removes an attribute from the facts domain. -/
theorem forwardLoop_facts_isSome (n it : ℕ) (kb : KB) (a : String)
    (h : (dictGet kb.facts a).isSome) :
    (dictGet ((forwardLoop n it kb).2).facts a).isSome := by
  induction n generalizing it kb with
  | zero => simpa [forwardLoop] using h
  | succ n ih =>
      simp only [forwardLoop]
      cases hfp : forwardPass it kb kb.rules with
      | mk kb' fs =>
          have h' := forwardPass_facts_isSome it kb.rules kb a h
          rw [hfp] at h'
          cases he : fs.isEmpty with
          | true => simpa using h'
          | false =>
              simp only [Bool.false_eq_true, if_false]
              cases hlp : forwardLoop n (it + 1) kb' with
              | mk rest kb2 =>
                  have := ih (it + 1) kb' h'
                  rw [hlp] at this
                  simpa using this

/-- C1 as amended: forward chaining never deletes a fact — the set of
attributes holding a fact after `forward_chain` is a superset of the set
before — but it may overwrite a known attribute's value when a firing
rule concludes a different value for it (see `c1_counterexample`). -/
theorem c1_forward_attribute_monotone (kb : KB) (n : ℕ) (a : String)
    (h : (dictGet kb.facts a).isSome) :
    (dictGet (forward_chain kb n).2.facts a).isSome :=
  forwardLoop_facts_isSome n 1 kb a h

/-- Witness for C1 (amended) on `kbOver`: attribute `B` still holds a
fact after the overwriting run. -/
theorem c1_witness :
    ((dictGet kbOver.facts "B").isSome = true) ∧
    ((dictGet (forward_chain kbOver 50).2.facts "B").isSome = true) :=
  ⟨by decide, c1_forward_attribute_monotone kbOver 50 "B" (by decide)⟩

/-! ## Claim C4: fixpoint idempotence -/

/-- Counterexample to C4 as stated: on `kbOsc` the two rules re-fire
every round (each overwrites the other's conclusion), the iteration cap
of 50 stops a non-converged run, and a second `forward_chain` straight
after the first still derives new facts. -/
theorem c4_counterexample :
    (forward_chain (forward_chain kbOsc 50).2 50).1 ≠ [] := by decide

/-- A forward pass that asserts nothing leaves the store untouched. -/
theorem forwardPass_nil_eq (it : ℕ) (rs : List Rule) (kb : KB)
    (h : (forwardPass it kb rs).2 = []) : (forwardPass it kb rs).1 = kb := by
  induction rs generalizing kb with
  | nil => simp [forwardPass]
  | cons r rest ih =>
      simp only [forwardPass] at h ⊢
      cases hch : conditions_hold kb r.conditions with
      | mk ok used =>
          rw [hch] at h
          cases ok with
          | false => exact ih kb h
          | true =>
              simp only at h ⊢
              cases hf : kb.has_fact r.conclusion.attr r.conclusion.value with
              | true => rw [hf] at h; exact ih kb h
              | false =>
                  rw [hf] at h
                  simp only [Bool.false_eq_true, if_false] at h
                  cases hfp : forwardPass it (assertForward kb r it used) rest with
                  | mk kb2 fs => rw [hfp] at h; simp at h

/-- C4 as amended: if the store is at a fixpoint — one further full rule
pass asserts nothing — then `forward_chain` returns no new facts and
leaves the store unchanged.  So a second run is a no-op exactly when the
first run ended by reaching a fixpoint; when the iteration cap cut a
non-converged run short, the second run may still derive facts (see
`c4_counterexample`). -/
theorem c4_fixpoint_idempotent (kb : KB) (n : ℕ)
    (h : (forwardPass 1 kb kb.rules).2 = []) :
    forward_chain kb n = ([], kb) := by
  have hkb := forwardPass_nil_eq 1 kb.rules kb h
  cases n with
  | zero => simp [forward_chain, forwardLoop]
  | succ n =>
      unfold forward_chain forwardLoop
      cases hfp : forwardPass 1 kb kb.rules with
      | mk kb' fs =>
          rw [hfp] at h hkb
          simp only at h hkb
          subst h hkb
          simp

/-- Witness for C4 (amended): `kbFix` is at fixpoint, and a full
`forward_chain` run on it derives nothing and changes nothing. -/
theorem c4_witness :
    ((forwardPass 1 kbFix kbFix.rules).2 = []) ∧
    forward_chain kbFix 50 = ([], kbFix) :=
  ⟨by decide, c4_fixpoint_idempotent kbFix 50 (by decide)⟩

/-! ## Generic state invariants of the backward prover

`conds_step` mutates the store only through its recursive prover,
`cands_step` additionally through `assertBackward`, and `bproveF`
additionally grows the visited set.  The following lemmas thread an
arbitrary invariant `P` over (store, visited) through that structure;
each claim instantiates `P`. -/

/-- `conds_step` preserves any invariant preserved by its recursive
prover. -/
theorem conds_step_inv (P : KB → Vis → Prop) (recur : BProveFn)
    (hrec : ∀ kb g v vis r, recur kb g v vis = some r → P kb vis → P r.2.1 r.2.2) :
    ∀ (cs : List Condition) (kb : KB) (vis : Vis) (r : Bool × List Fact × KB × Vis),
      conds_step recur kb vis cs = some r → P kb vis → P r.2.2.1 r.2.2.2 := by
  intro cs
  induction cs with
  | nil =>
      intro kb vis r he hP
      simp only [conds_step, Option.some.injEq] at he
      subst he
      exact hP
  | cons c rest ih =>
      intro kb vis r he hP
      simp only [conds_step] at he
      cases hg : dictGet kb.facts c.attr with
      | some w =>
          rw [hg] at he
          simp only at he
          by_cases hc : pyCmp w c.op c.value = true
          · rw [if_pos hc] at he
            cases hrest : conds_step recur kb vis rest with
            | none => rw [hrest] at he; cases he
            | some t =>
                obtain ⟨ok2, fs2, kb2, vis2⟩ := t
                rw [hrest] at he
                simp only [Option.some.injEq] at he
                subst he
                exact ih kb vis (ok2, fs2, kb2, vis2) hrest hP
          · rw [if_neg hc] at he
            simp only [Option.some.injEq] at he
            subst he
            exact hP
      | none =>
          rw [hg] at he
          by_cases hop : c.op ∈ eqOps
          · rw [if_pos hop] at he
            cases hr : recur kb c.attr c.value vis with
            | none => rw [hr] at he; cases he
            | some t =>
                obtain ⟨b2, kb2, vis2⟩ := t
                rw [hr] at he
                have hP2 : P kb2 vis2 := hrec kb c.attr c.value vis (b2, kb2, vis2) hr hP
                cases b2 with
                | true =>
                    simp only at he
                    cases hrest : conds_step recur kb2 vis2 rest with
                    | none => rw [hrest] at he; cases he
                    | some t2 =>
                        obtain ⟨ok3, fs3, kb3, vis3⟩ := t2
                        rw [hrest] at he
                        simp only [Option.some.injEq] at he
                        subst he
                        exact ih kb2 vis2 (ok3, fs3, kb3, vis3) hrest hP2
                | false =>
                    simp only [Option.some.injEq] at he
                    subst he
                    exact hP2
          · rw [if_neg hop] at he
            simp only [Option.some.injEq] at he
            subst he
            exact hP

/-- `cands_step` preserves any invariant preserved by its recursive
prover and by asserting the goal. -/
theorem cands_step_inv (P : KB → Vis → Prop) (g : String) (v : Value) (recur : BProveFn)
    (hrec : ∀ kb g2 v2 vis r, recur kb g2 v2 vis = some r → P kb vis → P r.2.1 r.2.2)
    (hassertP : ∀ kb vis rid used, P kb vis → P (assertBackward kb g v rid used) vis) :
    ∀ (rs : List Rule) (kb : KB) (vis : Vis) (r : Bool × KB × Vis),
      cands_step recur g v kb vis rs = some r → P kb vis → P r.2.1 r.2.2 := by
  intro rs
  induction rs with
  | nil =>
      intro kb vis r he hP
      simp only [cands_step, Option.some.injEq] at he
      subst he
      exact hP
  | cons rl rest ih =>
      intro kb vis r he hP
      simp only [cands_step] at he
      cases hcs : conds_step recur kb vis rl.conditions with
      | none => rw [hcs] at he; cases he
      | some t =>
          obtain ⟨ok, fs, kb2, vis2⟩ := t
          rw [hcs] at he
          have hP2 : P kb2 vis2 :=
            conds_step_inv P recur (fun kb g2 v2 vis r hx => hrec kb g2 v2 vis r hx)
              rl.conditions kb vis (ok, fs, kb2, vis2) hcs hP
          cases ok with
          | true =>
              simp only [Option.some.injEq] at he
              subst he
              exact hassertP kb2 vis2 rl.id fs hP2
          | false =>
              simp only at he
              exact ih kb2 vis2 r he hP2

/-- `cands_step` with a `false` result performs no goal assertion of its
own, so it preserves any invariant preserved by its recursive prover. -/
theorem cands_step_inv_of_false (P : KB → Vis → Prop) (g : String) (v : Value)
    (recur : BProveFn)
    (hrec : ∀ kb g2 v2 vis r, recur kb g2 v2 vis = some r → P kb vis → P r.2.1 r.2.2) :
    ∀ (rs : List Rule) (kb : KB) (vis : Vis) (kb' : KB) (vis' : Vis),
      cands_step recur g v kb vis rs = some (false, kb', vis') → P kb vis → P kb' vis' := by
  intro rs
  induction rs with
  | nil =>
      intro kb vis kb' vis' he hP
      simp only [cands_step, Option.some.injEq, Prod.mk.injEq] at he
      obtain ⟨-, h2, h3⟩ := he
      subst h2; subst h3
      exact hP
  | cons rl rest ih =>
      intro kb vis kb' vis' he hP
      simp only [cands_step] at he
      cases hcs : conds_step recur kb vis rl.conditions with
      | none => rw [hcs] at he; cases he
      | some t =>
          obtain ⟨ok, fs, kb2, vis2⟩ := t
          rw [hcs] at he
          have hP2 : P kb2 vis2 :=
            conds_step_inv P recur (fun kb g2 v2 vis r hx => hrec kb g2 v2 vis r hx)
              rl.conditions kb vis (ok, fs, kb2, vis2) hcs hP
          cases ok with
          | true => simp at he
          | false =>
              simp only at he
              exact ih kb2 vis2 kb' vis' he hP2

/-- The master invariant lemma for the backward prover: an invariant `P`
survives a whole (fuel-bounded) proof attempt provided it survives
growing the visited set, and survives asserting a goal pair that was
unvisited and unknown when its sub-proof began. -/
theorem bproveF_inv (P : KB → Vis → Prop)
    (hvis : ∀ kb g v vis, P kb vis → P kb ((g, v) :: vis))
    (hassert : ∀ kb0 vis0 g v kb vis rid used, P kb0 vis0 → visMem g v vis0 = false →
      kb0.has_fact g v = false → P kb vis → P (assertBackward kb g v rid used) vis) :
    ∀ (fuel : ℕ) (kb : KB) (g : String) (v : Value) (vis : Vis) (r : Bool × KB × Vis),
      bproveF fuel kb g v vis = some r → P kb vis → P r.2.1 r.2.2 := by
  intro fuel
  induction fuel with
  | zero => intro kb g v vis r he hP; simp [bproveF] at he
  | succ fuel ih =>
      intro kb g v vis r he hP
      simp only [bproveF] at he
      by_cases hm : visMem g v vis = true
      · rw [if_pos hm] at he
        simp only [Option.some.injEq] at he
        subst he
        exact hP
      · rw [if_neg hm] at he
        have hP1 : P kb ((g, v) :: vis) := hvis kb g v vis hP
        by_cases hf : kb.has_fact g v = true
        · rw [if_pos hf] at he
          simp only [Option.some.injEq] at he
          subst he
          exact hP1
        · rw [if_neg hf] at he
          exact cands_step_inv P g v (bproveF fuel)
            (fun kb2 g2 v2 vis2 r2 he2 hP2 => ih kb2 g2 v2 vis2 r2 he2 hP2)
            (fun kb2 vis2 rid used hP2 =>
              hassert kb vis g v kb2 vis2 rid used hP
                (by simpa using hm) (by simpa using hf) hP2)
            _ kb ((g, v) :: vis) r he hP1

/-! ## Claim C8: facts and justifications stay keyed identically -/

/-- Writing the same key into both maps preserves key alignment. -/
theorem aligned_dictSet {f : List (String × Value)} {j : List (String × Justification)}
    (k : String) (v : Value) (J : Justification)
    (h : keyFinset f = keyFinset j) :
    keyFinset (dictSet f k v) = keyFinset (dictSet j k J) := by
  rw [keyFinset_dictSet, keyFinset_dictSet, h]

/-- `add_fact` preserves key alignment. -/
theorem aligned_add_fact (kb : KB) (a : String) (v : Value) (nt : String)
    (h : factsJustsAligned kb) : factsJustsAligned (kb.add_fact a v nt) :=
  aligned_dictSet a v _ h

/-- A forward-chaining assertion preserves key alignment. -/
theorem aligned_assertForward (kb : KB) (r : Rule) (it : ℕ) (used : List Fact)
    (h : factsJustsAligned kb) : factsJustsAligned (assertForward kb r it used) :=
  aligned_dictSet r.conclusion.attr r.conclusion.value _ h

/-- A backward-chaining assertion preserves key alignment. -/
theorem aligned_assertBackward (kb : KB) (g : String) (v : Value) (rid : ℤ)
    (used : List Fact) (h : factsJustsAligned kb) :
    factsJustsAligned (assertBackward kb g v rid used) :=
  aligned_dictSet g v _ h

/-- A forward pass preserves key alignment. -/
theorem forwardPass_aligned (it : ℕ) (rs : List Rule) (kb : KB)
    (h : factsJustsAligned kb) : factsJustsAligned (forwardPass it kb rs).1 := by
  induction rs generalizing kb with
  | nil => simpa [forwardPass] using h
  | cons r rest ih =>
      simp only [forwardPass]
      cases hch : conditions_hold kb r.conditions with
      | mk ok used =>
          cases ok with
          | false => exact ih kb h
          | true =>
              simp only
              cases hf : kb.has_fact r.conclusion.attr r.conclusion.value with
              | true => simpa using ih kb h
              | false =>
                  simp only [Bool.false_eq_true, if_false]
                  cases hfp : forwardPass it (assertForward kb r it used) rest with
                  | mk kb2 fs =>
                      have := ih (assertForward kb r it used)
                        (aligned_assertForward kb r it used h)
                      rw [hfp] at this
                      simpa using this

/-- The forward loop preserves key alignment. -/
theorem forwardLoop_aligned (n it : ℕ) (kb : KB)
    (h : factsJustsAligned kb) : factsJustsAligned ((forwardLoop n it kb).2) := by
  induction n generalizing it kb with
  | zero => simpa [forwardLoop] using h
  | succ n ih =>
      simp only [forwardLoop]
      cases hfp : forwardPass it kb kb.rules with
      | mk kb' fs =>
          have h' := forwardPass_aligned it kb.rules kb h
          rw [hfp] at h'
          cases he : fs.isEmpty with
          | true => simpa using h'
          | false =>
              simp only [Bool.false_eq_true, if_false]
              cases hlp : forwardLoop n (it + 1) kb' with
              | mk rest kb2 =>
                  have := ih (it + 1) kb' h'
                  rw [hlp] at this
                  simpa using this

/-- The facts loop of `load_json` preserves key alignment. -/
theorem loadFacts_aligned (l : List (String × Value)) (k : KB)
    (h : factsJustsAligned k) : factsJustsAligned (l.foldl loadFactsStep k) := by
  induction l generalizing k with
  | nil => simpa using h
  | cons p rest ih =>
      simp only [List.foldl_cons]
      exact ih (loadFactsStep k p) (aligned_add_fact k p.1 p.2 "base" h)

/-- The rules loop of `load_json` does not touch facts or
justifications. -/
theorem loadRules_facts_justs (rs : List RuleJson) (k : KB) :
    (rs.foldl loadRuleStep k).facts = k.facts ∧
    (rs.foldl loadRuleStep k).justifications = k.justifications := by
  induction rs generalizing k with
  | nil => simp
  | cons rj rest ih =>
      simp only [List.foldl_cons]
      exact ih (loadRuleStep k rj)

/-- C8: every fact-touching core operation — `add_fact`, a
`forward_chain` run, a (fuel-bounded) `backward_prove` run, `load_json`,
and restoring a snapshot — preserves the invariant that the facts map
and the justifications map have exactly the same key set. -/
theorem c8_invariant_preserved (kb : KB) (h : factsJustsAligned kb) :
    (∀ (a : String) (v : Value) (nt : String), factsJustsAligned (kb.add_fact a v nt)) ∧
    (∀ n : ℕ, factsJustsAligned (forward_chain kb n).2) ∧
    (∀ (fuel : ℕ) (g : String) (v : Value) (r : Bool × KB × Vis),
      bproveF fuel kb g v [] = some r → factsJustsAligned r.2.1) ∧
    (∀ obj : KBJson, factsJustsAligned (kb.load_json obj)) ∧
    (∀ kb2 : KB, factsJustsAligned (restore_kb kb2 (snapshot_kb kb))) := by
  refine ⟨fun a v nt => aligned_add_fact kb a v nt h,
    fun n => forwardLoop_aligned n 1 kb h,
    fun fuel g v r he => ?_, fun obj => ?_, fun kb2 => ?_⟩
  · exact bproveF_inv (fun k _ => factsJustsAligned k)
      (fun kb g2 v2 vis hP => hP)
      (fun kb0 vis0 g2 v2 kb vis rid used _ _ _ hP =>
        aligned_assertBackward kb g2 v2 rid used hP)
      fuel kb g v [] r he h
  · unfold KB.load_json factsJustsAligned
    rw [(rebuild_state _).1, (rebuild_state _).2.2.1,
      (loadRules_facts_justs obj.rules _).1, (loadRules_facts_justs obj.rules _).2]
    exact loadFacts_aligned obj.facts KB.init rfl
  · rw [restore_snapshot_eq]
    exact h

/-- Witness for C8 on concrete stores: the empty store is aligned and
every operation keeps it (or `kbC2`, which is not needed here) aligned. -/
theorem c8_witness :
    factsJustsAligned (KB.init.add_fact "A" (.num 1) "base") ∧
    factsJustsAligned (forward_chain KB.init 50).2 ∧
    (bproveF 1 KB.init "X" (.num 1) [] = some (false, KB.init, [("X", .num 1)]) ∧
      factsJustsAligned KB.init) ∧
    factsJustsAligned (KB.init.load_json objC10) ∧
    factsJustsAligned (restore_kb kbC2 (snapshot_kb KB.init)) :=
  ⟨(c8_invariant_preserved KB.init rfl).1 "A" (.num 1) "base",
    (c8_invariant_preserved KB.init rfl).2.1 50,
    ⟨by decide, (c8_invariant_preserved KB.init rfl).2.2.1 1 "X" (.num 1)
      (false, KB.init, [("X", .num 1)]) (by decide)⟩,
    (c8_invariant_preserved KB.init rfl).2.2.2.1 objC10,
    (c8_invariant_preserved KB.init rfl).2.2.2.2 kbC2⟩

/-! ## Claim C2: a failed proof attempt and the store -/

/-- Counterexample to C2 as stated: proving `G = 1` on `kbC2` fails, yet
the store is mutated — the successfully sub-proved fact `A = 1` and its
justification persist. -/
theorem c2_counterexample :
    bproveF 10 kbC2 "G" (.num 1) [] = some (false, kbC2after, visC2after) ∧
    kbC2.facts ≠ kbC2after.facts ∧
    kbC2.justifications ≠ kbC2after.justifications :=
  ⟨by decide, by decide, by decide⟩

/-- Membership in the visited set, unfolded. -/
theorem visMem_iff {g : String} {v : Value} {vis : Vis} :
    visMem g v vis = true ↔ ∃ p ∈ vis, p.1 = g ∧ pyEq p.2 v = true := by
  simp [visMem, List.any_eq_true, Bool.and_eq_true, beq_iff_eq]

/-- The visited set only grows, so membership survives an insertion. -/
theorem visMem_tail {g : String} {v : Value} {p : String × Value} {vis : Vis}
    (h : visMem g v vis = true) : visMem g v (p :: vis) = true := by
  simp only [visMem, List.any_cons] at h ⊢
  rw [h, Bool.or_true]

/-- The pair just inserted is visited. -/
theorem visMem_head (g : String) (v : Value) (vis : Vis) :
    visMem g v ((g, v) :: vis) = true := by
  simp [visMem, List.any_cons, pyEq_refl]

/-- `has_fact` only looks at the attribute's current entry. -/
theorem has_fact_congr {kb1 kb2 : KB} (a : String) (v : Value)
    (h : dictGet kb1.facts a = dictGet kb2.facts a) :
    kb1.has_fact a v = kb2.has_fact a v := by
  unfold KB.has_fact
  rw [h]

/-- Asserting a pair that is not Python-equal to `(a, v)` (and with
`v ≠ None`) cannot establish `has_fact a v`. -/
theorem has_fact_after_assert {kb : KB} {g a : String} {w v : Value} {rid : ℤ}
    {used : List Fact} (hv : v ≠ .null)
    (hne : ¬(g = a ∧ pyEq w v = true))
    (h : kb.has_fact a v = false) :
    (assertBackward kb g w rid used).has_fact a v = false := by
  by_cases hg : g = a
  · subst hg
    have hw : pyEq w v = false := by
      cases hpe : pyEq w v with
      | true => exact absurd ⟨rfl, hpe⟩ hne
      | false => rfl
    unfold KB.has_fact assertBackward
    simp only [dictGet_dictSet_self]
    cases v with
    | null => exact absurd rfl hv
    | num q => exact hw
    | text s => exact hw
    | bool b => exact hw
    | vlist xs => exact hw
  · have hd : dictGet (assertBackward kb g w rid used).facts a = dictGet kb.facts a := by
      simpa [assertBackward] using dictGet_dictSet_other kb.facts g a w hg
    rw [has_fact_congr a v hd]
    exact h

/-- C2 as amended: when `backward_prove` returns failure on a non-`None`
goal value, the goal fact itself is still not established afterwards
(`has_fact(goal_attr, goal_val)` stays `false`) — although facts proved
for sub-goals along the way do persist (see `c2_counterexample`). -/
theorem c2_failed_prove_goal_not_established
    (fuel : ℕ) (kb : KB) (g : String) (v : Value) (hv : v ≠ .null)
    (kb' : KB) (vis' : Vis)
    (he : bproveF fuel kb g v [] = some (false, kb', vis')) :
    kb'.has_fact g v = false := by
  cases fuel with
  | zero => simp [bproveF] at he
  | succ fuel =>
      simp only [bproveF] at he
      rw [if_neg (by simp [visMem] : ¬(visMem g v [] = true))] at he
      by_cases hf : kb.has_fact g v = true
      · rw [if_pos hf] at he
        simp at he
      · rw [if_neg hf] at he
        have hvisP : ∀ (k : KB) (g2 : String) (v2 : Value) (vi : Vis),
            (visMem g v vi = true ∧ k.has_fact g v = false) →
            (visMem g v ((g2, v2) :: vi) = true ∧ k.has_fact g v = false) :=
          fun k g2 v2 vi hp => ⟨visMem_tail hp.1, hp.2⟩
        have hassertP : ∀ (kb0 : KB) (vis0 : Vis) (g2 : String) (v2 : Value)
            (k : KB) (vi : Vis) (rid : ℤ) (used : List Fact),
            (visMem g v vis0 = true ∧ kb0.has_fact g v = false) →
            visMem g2 v2 vis0 = false → kb0.has_fact g2 v2 = false →
            (visMem g v vi = true ∧ k.has_fact g v = false) →
            (visMem g v vi = true ∧
              (assertBackward k g2 v2 rid used).has_fact g v = false) := by
          intro kb0 vis0 g2 v2 k vi rid used hp0 hnm hnf hp
          refine ⟨hp.1, has_fact_after_assert hv ?_ hp.2⟩
          rintro ⟨rfl, hpe⟩
          obtain ⟨p, hpmem, hp1, hp2⟩ := visMem_iff.mp hp0.1
          have : visMem g2 v2 vis0 = true :=
            visMem_iff.mpr ⟨p, hpmem, hp1, pyEq_trans hp2 (by rwa [pyEq_symm])⟩
          rw [this] at hnm
          cases hnm
        have hres := cands_step_inv_of_false
          (fun k vi => visMem g v vi = true ∧ k.has_fact g v = false) g v
          (bproveF fuel)
          (fun k2 g2 v2 vi2 r2 he2 hp2 =>
            bproveF_inv _ hvisP hassertP fuel k2 g2 v2 vi2 r2 he2 hp2)
          _ kb [(g, v)] kb' vis' he
          ⟨visMem_head g v [], by simpa using hf⟩
        exact hres.2

/-- Witness for C2 (amended): the failed proof of `G = 1` on `kbC2`
leaves `has_fact("G", 1)` false even though the store changed. -/
theorem c2_witness :
    bproveF 10 kbC2 "G" (.num 1) [] = some (false, kbC2after, visC2after) ∧
    kbC2after.has_fact "G" (.num 1) = false :=
  ⟨by decide, c2_failed_prove_goal_not_established 10 kbC2 "G" (.num 1) (by decide)
    kbC2after visC2after (by decide)⟩

/-! ## Claim C3: termination of the backward prover

The source terminates because every recursive call first inserts a
previously unseen `(attribute, value)` pair into the shared visited set,
and all such pairs (beyond the top goal) come from rule conditions — a
finite universe.  We make that argument exact: with `U` the list of
condition pairs, the measure `unvisitedCount U vis` strictly decreases
on entering a sub-proof, so a fuel of `length U + 2` can never run out. -/

/-- Filtering with a (pointwise) stronger predicate keeps fewer
elements. -/
theorem length_filter_mono {α : Type} (l : List α) (p q : α → Bool)
    (h : ∀ x ∈ l, p x = true → q x = true) :
    (l.filter p).length ≤ (l.filter q).length := by
  induction l with
  | nil => simp
  | cons x xs ih =>
      have ih' := ih (fun y hy => h y (List.mem_cons_of_mem x hy))
      by_cases hp : p x = true
      · have hq := h x (List.mem_cons_self x xs) hp
        simp only [List.filter_cons, hp, hq, if_true, List.length_cons]
        exact Nat.succ_le_succ ih'
      · simp only [List.filter_cons, if_neg hp]
        by_cases hq : q x = true
        · simp only [hq, if_true, List.length_cons]
          exact Nat.le_succ_of_le ih'
        · simp only [hq, if_false]
          exact ih'

/-- Filtering with a strictly stronger predicate (witnessed by one
element of the list kept by `q` but dropped by `p`) keeps strictly fewer
elements. -/
theorem length_filter_lt {α : Type} (l : List α) (p q : α → Bool)
    (h : ∀ x ∈ l, p x = true → q x = true)
    (x0 : α) (hx0 : x0 ∈ l) (hq0 : q x0 = true) (hp0 : p x0 = false) :
    (l.filter p).length < (l.filter q).length := by
  induction l with
  | nil => cases hx0
  | cons x xs ih =>
      have hsub : ∀ y ∈ xs, p y = true → q y = true :=
        fun y hy => h y (List.mem_cons_of_mem x hy)
      rcases List.mem_cons.mp hx0 with rfl | hx0'
      · simp only [List.filter_cons, hp0, hq0, if_true, if_false, Bool.false_eq_true,
          List.length_cons]
        exact Nat.lt_succ_of_le (length_filter_mono xs p q hsub)
      · by_cases hp : p x = true
        · have hq := h x (List.mem_cons_self x xs) hp
          simp only [List.filter_cons, hp, hq, if_true, List.length_cons]
          exact Nat.succ_lt_succ (ih hsub hx0')
        · simp only [List.filter_cons, if_neg hp]
          by_cases hq : q x = true
          · simp only [hq, if_true, List.length_cons]
            exact Nat.lt_succ_of_lt (ih hsub hx0')
          · simp only [hq, if_false]
            exact ih hsub hx0'

/-- Visited-set membership survives prepending any entries. -/
theorem visMem_append {g : String} {v : Value} (l : Vis) {vis : Vis}
    (h : visMem g v vis = true) : visMem g v (l ++ vis) = true := by
  simp only [visMem, List.any_append] at h ⊢
  rw [h, Bool.or_true]

/-- Growing the visited set cannot increase the unvisited count. -/
theorem unvisitedCount_append_le (U : List (String × Value)) (l vis : Vis) :
    unvisitedCount U (l ++ vis) ≤ unvisitedCount U vis := by
  apply length_filter_mono
  intro p _ hp
  simp only [Bool.not_eq_true'] at hp ⊢
  cases hm : visMem p.1 p.2 vis with
  | false => rfl
  | true => rw [visMem_append l hm] at hp; cases hp

/-- Inserting an unvisited pair of the universe strictly decreases the
unvisited count. -/
theorem unvisitedCount_insert_lt (U : List (String × Value)) (g : String) (v : Value)
    (vis : Vis) (hU : (g, v) ∈ U) (hnm : visMem g v vis = false) :
    unvisitedCount U ((g, v) :: vis) < unvisitedCount U vis := by
  unfold unvisitedCount
  refine length_filter_lt U (fun p => !visMem p.1 p.2 ((g, v) :: vis))
    (fun p => !visMem p.1 p.2 vis) ?_ (g, v) hU ?_ ?_
  · intro x _ hx
    simp only [Bool.not_eq_true'] at hx ⊢
    cases hm : visMem x.1 x.2 vis with
    | false => rfl
    | true => rw [visMem_tail hm] at hx; cases hx
  · simp [hnm]
  · simp [visMem_head]

/-- A condition of a rule of `R` contributes its pair to `condPairs R`. -/
theorem condPairs_mem {R : List Rule} {r : Rule} {c : Condition}
    (hr : r ∈ R) (hc : c ∈ r.conditions) : (c.attr, c.value) ∈ condPairs R := by
  simp only [condPairs, List.mem_flatMap]
  exact ⟨r, hr, List.mem_map.mpr ⟨c, hc, rfl⟩⟩

/-- The backward prover never changes the rule list. -/
theorem bproveF_rules (fuel : ℕ) (kb : KB) (g : String) (v : Value) (vis : Vis)
    (r : Bool × KB × Vis) (he : bproveF fuel kb g v vis = some r) :
    r.2.1.rules = kb.rules :=
  bproveF_inv (fun k _ => k.rules = kb.rules) (fun _ _ _ _ hp => hp)
    (fun _ _ _ _ _ _ _ _ _ _ _ hp => hp) fuel kb g v vis r he rfl

/-- The backward prover only prepends to the visited set. -/
theorem bproveF_vis_extends (fuel : ℕ) (kb : KB) (g : String) (v : Value) (vis : Vis)
    (r : Bool × KB × Vis) (he : bproveF fuel kb g v vis = some r) :
    ∃ l, r.2.2 = l ++ vis := by
  refine bproveF_inv (fun _ vi => ∃ l, vi = l ++ vis) ?_ ?_ fuel kb g v vis r he ⟨[], rfl⟩
  · rintro k g2 v2 vi ⟨l, rfl⟩
    exact ⟨(g2, v2) :: l, rfl⟩
  · intro _ _ _ _ _ _ _ _ _ _ _ hp
    exact hp

/-- `conds_step` preserves the rule list whenever its recursive prover
does. -/
theorem conds_step_rules (recur : BProveFn)
    (hrec : ∀ (kb : KB) (g : String) (v : Value) (vis : Vis) (r : Bool × KB × Vis),
      recur kb g v vis = some r → r.2.1.rules = kb.rules)
    (cs : List Condition) (kb : KB) (vis : Vis) (r : Bool × List Fact × KB × Vis)
    (he : conds_step recur kb vis cs = some r) : r.2.2.1.rules = kb.rules :=
  conds_step_inv (fun k _ => k.rules = kb.rules) recur
    (fun kb2 g v vis2 r2 he2 hp => (hrec kb2 g v vis2 r2 he2).trans hp)
    cs kb vis r he rfl

/-- `conds_step` only prepends to the visited set whenever its recursive
prover does. -/
theorem conds_step_vis_extends (recur : BProveFn)
    (hrec : ∀ (kb : KB) (g : String) (v : Value) (vis : Vis) (r : Bool × KB × Vis),
      recur kb g v vis = some r → ∃ l, r.2.2 = l ++ vis)
    (cs : List Condition) (kb : KB) (vis : Vis) (r : Bool × List Fact × KB × Vis)
    (he : conds_step recur kb vis cs = some r) : ∃ l, r.2.2.2 = l ++ vis := by
  refine conds_step_inv (fun _ vi => ∃ l, vi = l ++ vis) recur ?_ cs kb vis r he ⟨[], rfl⟩
  rintro kb2 g v vis2 r2 he2 ⟨l2, rfl⟩
  obtain ⟨l3, hl3⟩ := hrec kb2 g v _ r2 he2
  exact ⟨l3 ++ l2, by rw [hl3, List.append_assoc]⟩

/-- Totality of the condition loop, given totality of the recursive
prover one fuel level down. -/
theorem conds_step_total (U : List (String × Value)) (fuel : ℕ)
    (hIH : ∀ (kb : KB) (g : String) (v : Value) (vis : Vis),
      (∀ p ∈ condPairs kb.rules, p ∈ U) → unvisitedCount U vis < fuel →
      ((g, v) ∈ U ∨ unvisitedCount U vis + 1 < fuel) → (bproveF fuel kb g v vis).isSome) :
    ∀ (cs : List Condition) (kb : KB) (vis : Vis),
      (∀ p ∈ condPairs kb.rules, p ∈ U) →
      (∀ c ∈ cs, (c.attr, c.value) ∈ U) →
      unvisitedCount U vis < fuel →
      (conds_step (bproveF fuel) kb vis cs).isSome := by
  intro cs
  induction cs with
  | nil => intro kb vis _ _ _; simp [conds_step]
  | cons c rest ihc =>
      intro kb vis hco hcs hlt
      simp only [conds_step]
      cases hg : dictGet kb.facts c.attr with
      | some w =>
          simp only
          by_cases hc : pyCmp w c.op c.value = true
          · rw [if_pos hc]
            have hrest := ihc kb vis hco (fun c2 h2 => hcs c2 (List.mem_cons_of_mem c h2)) hlt
            cases hrr : conds_step (bproveF fuel) kb vis rest with
            | none => rw [hrr] at hrest; simp at hrest
            | some t => obtain ⟨ok2, fs2, kb2, vis2⟩ := t; simp
          · rw [if_neg hc]; simp
      | none =>
          by_cases hop : c.op ∈ eqOps
          · rw [if_pos hop]
            have hrec := hIH kb c.attr c.value vis hco hlt
              (Or.inl (hcs c (List.mem_cons_self c rest)))
            cases hr : bproveF fuel kb c.attr c.value vis with
            | none => rw [hr] at hrec; simp at hrec
            | some t =>
                obtain ⟨b2, kb2, vis2⟩ := t
                cases b2 with
                | false => simp
                | true =>
                    simp only
                    have hrules : kb2.rules = kb.rules :=
                      bproveF_rules fuel kb c.attr c.value vis (true, kb2, vis2) hr
                    obtain ⟨l, hl⟩ :=
                      bproveF_vis_extends fuel kb c.attr c.value vis (true, kb2, vis2) hr
                    have hl2 : vis2 = l ++ vis := hl
                    have hrest := ihc kb2 vis2 (by rw [hrules]; exact hco)
                      (fun c2 h2 => hcs c2 (List.mem_cons_of_mem c h2))
                      (lt_of_le_of_lt
                        (by rw [hl2]; exact unvisitedCount_append_le U l vis) hlt)
                    cases hrr : conds_step (bproveF fuel) kb2 vis2 rest with
                    | none => rw [hrr] at hrest; simp at hrest
                    | some t2 => obtain ⟨ok3, fs3, kb3, vis3⟩ := t2; simp
          · rw [if_neg hop]; simp

/-- Totality of the candidate loop, given totality of the recursive
prover one fuel level down. -/
theorem cands_step_total (U : List (String × Value)) (fuel : ℕ)
    (hIH : ∀ (kb : KB) (g : String) (v : Value) (vis : Vis),
      (∀ p ∈ condPairs kb.rules, p ∈ U) → unvisitedCount U vis < fuel →
      ((g, v) ∈ U ∨ unvisitedCount U vis + 1 < fuel) → (bproveF fuel kb g v vis).isSome) :
    ∀ (rs : List Rule) (kb : KB) (vis : Vis) (g : String) (v : Value),
      (∀ p ∈ condPairs kb.rules, p ∈ U) →
      (∀ r ∈ rs, ∀ c ∈ r.conditions, (c.attr, c.value) ∈ U) →
      unvisitedCount U vis < fuel →
      (cands_step (bproveF fuel) g v kb vis rs).isSome := by
  intro rs
  induction rs with
  | nil => intro kb vis g v _ _ _; simp [cands_step]
  | cons rl rest ihr =>
      intro kb vis g v hco hrs hlt
      simp only [cands_step]
      have hcst := conds_step_total U fuel hIH rl.conditions kb vis hco
        (fun c hc => hrs rl (List.mem_cons_self rl rest) c hc) hlt
      cases hcs : conds_step (bproveF fuel) kb vis rl.conditions with
      | none => rw [hcs] at hcst; simp at hcst
      | some t =>
          obtain ⟨ok, fs, kb2, vis2⟩ := t
          cases ok with
          | true => simp
          | false =>
              simp only
              have hrules : kb2.rules = kb.rules :=
                conds_step_rules (bproveF fuel)
                  (fun kb3 g3 v3 vis3 r3 he3 => bproveF_rules fuel kb3 g3 v3 vis3 r3 he3)
                  rl.conditions kb vis (false, fs, kb2, vis2) hcs
              obtain ⟨l, hl⟩ :=
                conds_step_vis_extends (bproveF fuel)
                  (fun kb3 g3 v3 vis3 r3 he3 => bproveF_vis_extends fuel kb3 g3 v3 vis3 r3 he3)
                  rl.conditions kb vis (false, fs, kb2, vis2) hcs
              have hl2 : vis2 = l ++ vis := hl
              exact ihr kb2 vis2 g v (by rw [hrules]; exact hco)
                (fun r hr c hc => hrs r (List.mem_cons_of_mem rl hr) c hc)
                (lt_of_le_of_lt (by rw [hl2]; exact unvisitedCount_append_le U l vis) hlt)

/-- The fuelled backward prover cannot run out of fuel while the fuel
exceeds the number of universe pairs not yet visited (plus one for a top
goal outside the universe). -/
theorem bproveF_total (U : List (String × Value)) :
    ∀ (fuel : ℕ) (kb : KB) (g : String) (v : Value) (vis : Vis),
      (∀ p ∈ condPairs kb.rules, p ∈ U) →
      unvisitedCount U vis < fuel →
      ((g, v) ∈ U ∨ unvisitedCount U vis + 1 < fuel) →
      (bproveF fuel kb g v vis).isSome := by
  intro fuel
  induction fuel with
  | zero => intro kb g v vis _ hlt _; exact absurd hlt (Nat.not_lt_zero _)
  | succ fuel ih =>
      intro kb g v vis hco hlt hdisj
      simp only [bproveF]
      by_cases hm : visMem g v vis = true
      · rw [if_pos hm]; simp
      · rw [if_neg hm]
        by_cases hf : kb.has_fact g v = true
        · rw [if_pos hf]; simp
        · rw [if_neg hf]
          have hbud : unvisitedCount U ((g, v) :: vis) < fuel := by
            rcases hdisj with hgv | hlt2
            · have hdec := unvisitedCount_insert_lt U g v vis hgv (by simpa using hm)
              omega
            · have hle : unvisitedCount U ((g, v) :: vis) ≤ unvisitedCount U vis :=
                unvisitedCount_append_le U [(g, v)] vis
              omega
          exact cands_step_total U fuel ih _ kb ((g, v) :: vis) g v hco
            (fun r hr c hc => hco _ (condPairs_mem (List.mem_filter.mp hr).1 hc))
            hbud

/-- C3: `backward_prove` terminates on every store and goal — a fuel of
`2 + (number of condition pairs in the rule set)` is never exhausted —
and on the spec's mutually dependent rule pair (`X=1` from `Y=1` and
`Y=1` from `X=1`, neither known) the proof of `X = 1` terminates with
failure, the visited set having cut the cycle, leaving the store
unchanged. -/
theorem c3_backward_terminates :
    (∀ (kb : KB) (g : String) (v : Value) (fuel : ℕ),
      (condPairs kb.rules).length + 2 ≤ fuel → (bproveF fuel kb g v []).isSome) ∧
    bproveF 4 kbCyc "X" (.num 1) [] =
      some (false, kbCyc, [("Y", .num 1), ("X", .num 1)]) := by
  constructor
  · intro kb g v fuel hfuel
    have hcnt : unvisitedCount (condPairs kb.rules) [] ≤ (condPairs kb.rules).length :=
      List.length_filter_le _ _
    exact bproveF_total (condPairs kb.rules) fuel kb g v []
      (fun p hp => hp) (by omega) (Or.inr (by omega))
  · decide

/-- Witness for C3: the fuel bound applies concretely to `kbCyc` (two
condition pairs, so fuel 4 suffices and the prover returns). -/
theorem c3_witness :
    ((condPairs kbCyc.rules).length + 2 ≤ 4) ∧
    (bproveF 4 kbCyc "X" (.num 1) []).isSome :=
  ⟨by decide, (c3_backward_terminates).1 kbCyc "X" (.num 1) 4 (by decide)⟩

end KBA
